import Mathlib

/-!
Verification of the Moment Catcher trailer-generation pipeline (app.py).

The development embeds the `MomentCatcher` class and the `upload_video`
handler as pure Lean functions.  Numeric values are modelled by exact
rationals; behaviour of external numeric libraries whose results are
irrational floating-point data (the FFT magnitudes used by the spectral
centroid, the square root inside StandardScaler, OpenCV's grayscale
conversion and Canny edge detector, and the success of the moviepy
renderer) is abstracted into a `Libs` record that the pipeline functions
take as a parameter, so every theorem quantifies over all behaviours of
those libraries.  Fallible Python code (exceptions raised by numpy or
scipy) is modelled with `Except String`.
-/

/-- Python `int(q)`: truncation of a real number toward zero. -/
def pyInt (q : ℚ) : ℤ := if q < 0 then -(Int.toNat ⌊-q⌋) else Int.toNat ⌊q⌋

/-- Python `range(start, stop, step)` for a nonzero step. -/
def pyRange (start stop step : ℤ) : List ℤ :=
  if 0 < step then
    (List.range (((stop - start + step - 1) / step).toNat)).map (fun k => start + step * k)
  else
    (List.range (((start - stop + (-step) - 1) / (-step)).toNat)).map (fun k => start + step * k)

/-- Python slice `xs[i : i+len]` for a nonnegative start index. -/
def listSlice (xs : List ℚ) (i len : ℤ) : List ℚ := (xs.drop i.toNat).take len.toNat

/-- numpy mean of a list of rationals. -/
def meanQ (xs : List ℚ) : ℚ := xs.sum / (xs.length : ℚ)

/-- numpy population variance (ddof = 0) of a list of rationals. -/
def varQ (xs : List ℚ) : ℚ := meanQ (xs.map (fun x => (x - meanQ xs) ^ 2))

/-- numpy sign of a rational. -/
def qsign (x : ℚ) : ℚ := if 0 < x then 1 else if x < 0 then -1 else 0

/-- A decoded colour frame: rows of pixels, each pixel a list of 3 channel values. -/
abbrev Frame := List (List (List ℚ))

/-- A grayscale image: rows of intensity values. -/
abbrev Gray := List (List ℚ)

/-- Behaviour of the external numeric libraries used by app.py.  Each field
models one library call whose exact numeric output is floating-point data
produced outside the repository: theorems quantify over every possible
behaviour of these calls. -/
structure Libs where
  /-- Magnitudes `np.abs(np.fft.fft(frame))` of the discrete Fourier transform. -/
  fftMag : List ℚ → List ℚ
  /-- The floating-point square root used inside sklearn's StandardScaler. -/
  sqrtQ : ℚ → ℚ
  /-- OpenCV `cv2.cvtColor(frame, COLOR_BGR2GRAY)`. -/
  cvtGray : Frame → Gray
  /-- OpenCV `cv2.Canny(gray, 50, 150)` edge map. -/
  canny : Gray → Gray
  /-- Whether moviepy's `write_videofile` succeeds for this run. -/
  renderOk : Bool

/-- A detected moment `(start_time, end_time, score)` from app.py line 164. -/
structure Moment where
  startT : ℚ
  endT : ℚ
  score : ℚ
deriving DecidableEq, Repr

/-- The video source opened by `MomentCatcher.__init__`: frame rate, duration,
optional decoded audio (one row of channel samples per audio sample, at the
audio sample rate) and the decoded video frames. -/
structure VideoInput where
  fps : ℚ
  duration : ℚ
  audioTrack : Option (List (List ℚ))
  frames : List Frame
deriving DecidableEq

/-- The mutable state of a `MomentCatcher` instance: the opened source and
the `self.moments` list. -/
structure MCState where
  video : VideoInput
  moments : List Moment
deriving DecidableEq

/-- `MomentCatcher.__init__` (app.py lines 40-45): store the source, start
with an empty moment list. -/
def initState (v : VideoInput) : MCState := ⟨v, []⟩

/-- Audio window length in samples, app.py line 62: `int(self.fps * 0.1)`.
Note that this is 0.1 times the VIDEO frame rate, applied to samples taken
at the AUDIO sample rate. -/
def frameLength (fps : ℚ) : ℤ := pyInt (fps * (1 / 10))

/-- Audio hop length, app.py line 63: `int(frame_length / 2)`. -/
def hopLength (fps : ℚ) : ℤ := pyInt ((frameLength fps : ℚ) / 2)

/-- `np.fft.fftfreq n`: the DFT sample frequencies, exact rationals. -/
def fftfreq (n : ℕ) : List ℚ :=
  (List.range n).map (fun k => if k ≤ (n - 1) / 2 then (k : ℚ) / n else ((k : ℚ) - n) / n)

/-- Energy of an audio window, app.py line 70: `np.sum(frame ** 2)`. -/
def energy (frame : List ℚ) : ℚ := (frame.map (fun x => x ^ 2)).sum

/-- Zero crossing rate, app.py line 73:
`np.sum(np.diff(np.sign(frame)) != 0) / len(frame)`. -/
def zcr (frame : List ℚ) : ℚ :=
  let s := frame.map qsign
  (((List.zipWith (fun a b => b - a) s (s.drop 1)).filter (fun d => d ≠ 0)).length : ℚ) /
    (frame.length : ℚ)

/-- Spectral centroid, app.py lines 76-78: magnitude-weighted mean absolute
DFT frequency.  The DFT magnitudes come from the `Libs` record. -/
def spectralCentroid (L : Libs) (frame : List ℚ) : ℚ :=
  let mags := L.fftMag frame
  (List.zipWith (fun a b => a * b) mags ((fftfreq frame.length).map (fun f => |f|))).sum /
    mags.sum

/-- One audio feature row, app.py line 80: `[energy, zcr, spectral_centroid]`. -/
def audioRow (L : Libs) (frame : List ℚ) : List ℚ :=
  [energy frame, zcr frame, spectralCentroid L frame]

/-- `MomentCatcher.extract_audio_features` (app.py lines 47-82).  With no
audio track it returns `np.zeros((int(duration * fps), 1))`; otherwise it
mono-mixes the samples and maps `audioRow` over the windows of
`frameLength` samples stepped by `hopLength`.  Python's `range` with step 0
raises, and `np.zeros` of a negative size raises. -/
def extractAudioFeatures (L : Libs) (v : VideoInput) : Except String (List (List ℚ)) :=
  match v.audioTrack with
  | none =>
      let n := pyInt (v.duration * v.fps)
      if n < 0 then .error "negative dimensions are not allowed"
      else .ok (List.replicate n.toNat [(0 : ℚ)])
  | some chans =>
      let samples := chans.map meanQ
      let fl := frameLength v.fps
      let hl := hopLength v.fps
      if hl = 0 then .error "range arg 3 must not be zero"
      else .ok ((pyRange 0 ((samples.length : ℤ) - fl) hl).map
                 (fun i => audioRow L (listSlice samples i fl)))

/-- Mean absolute difference between two grayscale images, app.py lines 102-103. -/
def motionScore (a b : Gray) : ℚ :=
  meanQ ((List.zipWith (fun r s => List.zipWith (fun x y => |x - y|) r s) a b).flatten)

/-- Fraction of pixels marked as edges, app.py line 109. -/
def edgeDensity (edges : Gray) : ℚ :=
  (((edges.flatten).filter (fun x => 0 < x)).length : ℚ) /
    ((edges.length : ℚ) * ((edges.headD []).length : ℚ))

/-- Variance of grayscale intensities, app.py line 112. -/
def brightnessVar (gray : Gray) : ℚ := varQ gray.flatten

/-- Mean of the per-channel pixel variances, app.py line 115. -/
def colorVar (f : Frame) : ℚ :=
  meanQ ((List.range 3).map (fun c => varQ ((f.flatten).map (fun px => px.getD c 0))))

/-- One visual feature row, app.py line 117:
`[motion_score, edge_density, brightness_var, color_var]`. -/
def visualRow (L : Libs) (motion : ℚ) (f : Frame) : List ℚ :=
  let gray := L.cvtGray f
  [motion, edgeDensity (L.canny gray), brightnessVar gray, colorVar f]

/-- Frame loop of `extract_visual_features` for frames after the first,
carrying the previous grayscale frame (app.py lines 92-119). -/
def evfGo (L : Libs) (prevGray : Gray) : List Frame → List (List ℚ)
  | [] => []
  | f :: rest =>
      let gray := L.cvtGray f
      visualRow L (motionScore gray prevGray) f :: evfGo L gray rest

/-- `MomentCatcher.extract_visual_features` (app.py lines 84-122): one
4-element row per decoded frame, motion score 0 for the first frame. -/
def extractVisualFeatures (L : Libs) : List Frame → List (List ℚ)
  | [] => []
  | f :: rest => visualRow L 0 f :: evfGo L (L.cvtGray f) rest

/-- Forward scan of scipy's `_local_maxima_1d` inner while loop: starting at
`j`, skip indices below `iMax` whose value equals `v`.  The fuel argument is
always called with at least `iMax` so the scan never runs out. -/
def scanAhead (x : List ℚ) (iMax : ℕ) (v : ℚ) : ℕ → ℕ → ℕ
  | 0, j => j
  | fuel + 1, j => if j < iMax ∧ x.getD j 0 = v then scanAhead x iMax v fuel (j + 1) else j

/-- Main loop of scipy's `_local_maxima_1d`: scan `i` from 1, record the
midpoint of every maximal plateau that rises on the left and falls on the
right, and jump past each recorded plateau. -/
def lmAux (x : List ℚ) (iMax : ℕ) : ℕ → ℕ → List ℕ
  | 0, _ => []
  | fuel + 1, i =>
      if i < iMax then
        if x.getD (i - 1) 0 < x.getD i 0 then
          let iA := scanAhead x iMax (x.getD i 0) iMax (i + 1)
          if x.getD iA 0 < x.getD i 0 then
            ((i + (iA - 1)) / 2) :: lmAux x iMax fuel (iA + 1)
          else lmAux x iMax fuel (i + 1)
        else lmAux x iMax fuel (i + 1)
      else []

/-- scipy `_local_maxima_1d`: indices of the local maxima of a sequence
(plateau midpoints; the first and last samples are never maxima). -/
def localMaxima (x : List ℚ) : List ℕ := lmAux x (x.length - 1) x.length 1

/-- Update a boolean assignment at one point to `false`. -/
def setFalse (k : ℕ) (keep : ℕ → Bool) : ℕ → Bool := fun i => if i = k then false else keep i

/-- Left while loop of scipy's `_select_by_peak_distance`: walking down from
`c - 1`, clear peaks closer than `dist` below the current peak value `pj`,
stopping at the first peak that is far enough. -/
def clearLeft (peaks : List ℕ) (dist pj : ℕ) : ℕ → (ℕ → Bool) → (ℕ → Bool)
  | 0, keep => keep
  | c + 1, keep =>
      if (pj : ℤ) - (peaks.getD c 0 : ℤ) < (dist : ℤ) then
        clearLeft peaks dist pj c (setFalse c keep)
      else keep

/-- Right while loop of scipy's `_select_by_peak_distance`: walking up from
`k`, clear peaks closer than `dist` above the current peak value `pj`,
stopping at the first peak that is far enough.  Fuel is called with `m`. -/
def clearRight (peaks : List ℕ) (m dist pj : ℕ) : ℕ → ℕ → (ℕ → Bool) → (ℕ → Bool)
  | 0, _, keep => keep
  | fuel + 1, k, keep =>
      if k < m then
        if (peaks.getD k 0 : ℤ) - (pj : ℤ) < (dist : ℤ) then
          clearRight peaks m dist pj fuel (k + 1) (setFalse k keep)
        else keep
      else keep

/-- Main loop of scipy's `_select_by_peak_distance`: visit peak positions in
order of decreasing priority; every still-kept peak clears its too-close
neighbours on both sides. -/
def sbpdGo (peaks : List ℕ) (m dist : ℕ) : List ℕ → (ℕ → Bool) → (ℕ → Bool)
  | [], keep => keep
  | j :: rest, keep =>
      if keep j then
        sbpdGo peaks m dist rest
          (clearRight peaks m dist (peaks.getD j 0) m (j + 1)
            (clearLeft peaks dist (peaks.getD j 0) j keep))
      else sbpdGo peaks m dist rest keep

/-- Comparison of indices by the rational values they point at; used to model
`np.argsort` by a stable sort. -/
def leByVal (xs : List ℚ) (i j : ℕ) : Prop := xs.getD i 0 ≤ xs.getD j 0

instance (xs : List ℚ) : DecidableRel (leByVal xs) :=
  fun i j => inferInstanceAs (Decidable (xs.getD i 0 ≤ xs.getD j 0))

instance (xs : List ℚ) : IsTotal ℕ (leByVal xs) := ⟨fun i j => le_total (xs.getD i 0) (xs.getD j 0)⟩

instance (xs : List ℚ) : IsTrans ℕ (leByVal xs) := ⟨fun _ _ _ h h2 => le_trans h h2⟩

/-- `np.argsort xs`: indices of `xs` sorted by ascending value (stable). -/
def argsortAsc (xs : List ℚ) : List ℕ :=
  List.insertionSort (leByVal xs) (List.range xs.length)

/-- scipy `_select_by_peak_distance peaks priority distance`: keep a subset of
`peaks` such that kept peaks are pairwise at least `distance` apart, greedily
preferring higher `priority`. -/
def selectByPeakDistance (peaks : List ℕ) (priority : List ℚ) (dist : ℕ) : List ℕ :=
  let m := peaks.length
  let keep := sbpdGo peaks m dist (argsortAsc priority).reverse (fun _ => true)
  ((List.range m).filter (fun j => keep j)).map (fun j => peaks.getD j 0)

/-- `scipy.signal.find_peaks x (height h) (distance d)`: local maxima whose
value is at least `h`, thinned so that selected maxima are pairwise at least
`d` apart.  scipy raises unless `distance >= 1`. -/
def findPeaks (x : List ℚ) (height : ℚ) (distance : ℤ) : Except String (List ℕ) :=
  if distance < 1 then .error "distance must be greater or equal to 1"
  else
    let ps := (localMaxima x).filter (fun p => height ≤ x.getD p 0)
    .ok (selectByPeakDistance ps (ps.map (fun p => x.getD p 0)) distance.toNat)

/-- Comparison of rationals used to model Python's stable `sorted`. -/
def qle (a b : ℚ) : Prop := a ≤ b

instance : DecidableRel qle := fun a b => inferInstanceAs (Decidable (a ≤ b))

instance : IsTotal ℚ qle := ⟨fun a b => le_total a b⟩

instance : IsTrans ℚ qle := ⟨fun _ _ _ h h2 => le_trans h h2⟩

/-- `np.percentile xs q` with the default linear interpolation: the value a
fraction `q/100` of the way along the sorted data. -/
def percentile (xs : List ℚ) (q : ℚ) : ℚ :=
  let s := List.insertionSort qle xs
  let rank := q / 100 * ((xs.length : ℚ) - 1)
  let lo := (Int.toNat ⌊rank⌋)
  let frac := rank - (lo : ℚ)
  s.getD lo 0 + frac * (s.getD (lo + 1) 0 - s.getD lo 0)

/-- The fixed excitement weight vector, app.py line 145: six weights. -/
def weights : List ℚ := [3/10, 2/10, 1/10, 2/10, 1/10, 1/10]

/-- `np.dot A w` for a 2-D matrix and a 1-D vector: defined only when every
row has exactly the length of `w`, otherwise numpy raises a shape error. -/
def matVecDot (A : List (List ℚ)) (w : List ℚ) : Option (List ℚ) :=
  if A.all (fun r => r.length = w.length) then
    some (A.map (fun r => (List.zipWith (fun a b => a * b) r w).sum))
  else none

/-- sklearn `StandardScaler().fit_transform`: independently center each
column and divide by its standard deviation (zero deviations replaced by 1,
as sklearn's `_handle_zeros_in_scale` does).  The square root is the
library's float computation, taken from `Libs`. -/
def fitTransform (L : Libs) (A : List (List ℚ)) : List (List ℚ) :=
  let d := (A.headD []).length
  let stats := (List.range d).map (fun j =>
      let c := A.map (fun r => r.getD j 0)
      let s := L.sqrtQ (varQ c)
      (meanQ c, if s = 0 then 1 else s))
  A.map (fun r => (List.range d).map (fun j =>
      (r.getD j 0 - (stats.getD j (0, 1)).1) / (stats.getD j (0, 1)).2))

/-- Python slice `xs[-K:]` on a list of indices.  For `K = 0` the slice is
`xs[0:]`, i.e. the whole list. -/
def pySliceLast (K : ℕ) (xs : List ℕ) : List ℕ :=
  if K = 0 then xs else xs.drop (xs.length - K)

/-- Comparison of moments by start time, used for `self.moments.sort`. -/
def leByStart (a b : Moment) : Prop := a.startT ≤ b.startT

instance : DecidableRel leByStart := fun a b => inferInstanceAs (Decidable (a.startT ≤ b.startT))

instance : IsTotal Moment leByStart := ⟨fun a b => le_total a.startT b.startT⟩

instance : IsTrans Moment leByStart := ⟨fun _ _ _ h h2 => le_trans h h2⟩

/-- The peak-detection call of `detect_moments`, app.py lines 149-151:
`find_peaks(scores, height=np.percentile(scores, 70), distance=int(fps*2))`. -/
def detectPeaks (scores : List ℚ) (fps : ℚ) : Except String (List ℕ) :=
  findPeaks scores (percentile scores 70) (pyInt (fps * 2))

/-- Top-moment selection and interval construction, app.py lines 155-167:
take the `num_moments` highest-scoring peaks via `np.argsort(...)[-K:]`,
convert each peak index to a clamped interval around `peak / fps`, and sort
the moments by start time. -/
def buildMoments (peaks : List ℕ) (scores : List ℚ) (numMoments : ℕ)
    (momentDuration fps dur : ℚ) : List Moment :=
  let peakScores := peaks.map (fun p => scores.getD p 0)
  let topIdx := pySliceLast numMoments (argsortAsc peakScores)
  let topPeaks := topIdx.map (fun i => peaks.getD i 0)
  List.insertionSort leByStart
    (topPeaks.map (fun (p : ℕ) =>
      Moment.mk (max 0 ((p : ℚ) / fps - momentDuration / 2))
        (min dur ((p : ℚ) / fps + momentDuration / 2))
        (scores.getD p 0)))

/-- `MomentCatcher.detect_moments` (app.py lines 124-169): extract audio and
visual features, align and standardize them, score with the fixed weight
vector, select peaks, and store the top moments sorted by start time.  The
result is the updated instance state; `self.moments` is the returned list. -/
def detectMoments (L : Libs) (st : MCState) (numMoments : ℕ) (momentDuration : ℚ) :
    Except String MCState :=
  match extractAudioFeatures L st.video with
  | .error e => .error e
  | .ok af =>
      let vf := extractVisualFeatures L st.video.frames
      if 0 < af.length ∧ 0 < vf.length then
        let minLen := min af.length vf.length
        let combined := List.zipWith (fun a b => a ++ b) (af.take minLen) (vf.take minLen)
        let normalized := fitTransform L combined
        match matVecDot normalized weights with
        | none => .error "matmul dimension mismatch"
        | some scores =>
            match detectPeaks scores st.video.fps with
            | .error e => .error e
            | .ok peaks =>
                if 0 < peaks.length then
                  let ms := buildMoments peaks scores numMoments momentDuration st.video.fps
                    st.video.duration
                  .ok { st with moments := ms }
                else .ok st
      else .ok st

/-- The clip-admission loop of `generate_trailer`, app.py lines 179-188:
before each moment, stop if the accumulated duration has reached the budget;
otherwise admit the whole moment and add its duration. -/
def admitClips : List Moment → ℚ → ℚ → List Moment
  | [], _, _ => []
  | m :: rest, maxDur, total =>
      if maxDur ≤ total then []
      else m :: admitClips rest maxDur (total + (m.endT - m.startT))

/-- Rendering stage of `generate_trailer`, app.py lines 179-201: admit clips
under the budget; with no admitted clip return `False` and write nothing,
otherwise concatenate and render (which may fail), returning `True` and the
output path. -/
def assembleStage (L : Libs) (st : MCState) (out : String) (maxDur : ℚ) :
    Except String (MCState × Bool × Option String) :=
  let clips := admitClips st.moments maxDur 0
  if clips.isEmpty then .ok (st, false, none)
  else if L.renderOk then .ok (st, true, some out) else .error "render failed"

/-- `MomentCatcher.generate_trailer` (app.py lines 171-201): if no moments
were detected yet, first run `detect_moments()` with its default parameters
(`num_moments=10`, `moment_duration=3.0`); then assemble the trailer. -/
def generateTrailer (L : Libs) (st : MCState) (out : String) (maxDur : ℚ) :
    Except String (MCState × Bool × Option String) :=
  match (if st.moments.isEmpty then detectMoments L st 10 3 else .ok st) with
  | .error e => .error e
  | .ok st2 => assembleStage L st2 out maxDur

/-- The HTTP response of the upload handler. -/
inductive UploadResponse
  | okJson (momentCount : ℕ) (outputFile : String)
  | serverError (msg : String)
deriving DecidableEq

/-- Observable outcome of one `upload_video` run: the response, whether
`catcher.close()` was executed before returning, and whether the uploaded
file was deleted. -/
structure UploadOutcome where
  response : UploadResponse
  closeCalled : Bool
  uploadDeleted : Bool
deriving DecidableEq

/-- The processing part of `upload_video` (app.py lines 228-255): construct a
`MomentCatcher`, detect moments, generate the trailer, then close the
catcher.  Any exception is caught and turned into a 500 response, and the
`finally` block deletes the uploaded file on every path.  `catcher.close()`
(line 238) runs only on the no-exception path. -/
def uploadVideo (L : Libs) (v : VideoInput) (outName : String) : UploadOutcome :=
  match detectMoments L (initState v) 10 3 with
  | .error e => ⟨.serverError ("Processing failed: " ++ e), false, true⟩
  | .ok st1 =>
      match generateTrailer L st1 outName 30 with
      | .error e => ⟨.serverError ("Processing failed: " ++ e), false, true⟩
      | .ok (_, success, _) =>
          if success then ⟨.okJson st1.moments.length outName, true, true⟩
          else ⟨.serverError "Failed to generate trailer", true, true⟩

/-- Every audio feature row has width 3 when an audio track is present and
width 1 (the zero fallback column) when it is absent. -/
theorem extractAudioFeatures_widths (L : Libs) (v : VideoInput) (af : List (List ℚ))
    (h : extractAudioFeatures L v = .ok af) :
    (∀ r ∈ af, r.length = 1) ∨ (∀ r ∈ af, r.length = 3) := by
  unfold extractAudioFeatures at h
  cases hv : v.audioTrack with
  | none =>
      rw [hv] at h
      by_cases hn : pyInt (v.duration * v.fps) < 0
      · simp [hn] at h
      · left
        simp only [hn, if_false] at h
        cases h
        intro r hr
        have := List.eq_of_mem_replicate hr
        simp [this]
  | some chans =>
      rw [hv] at h
      by_cases hz : hopLength v.fps = 0
      · simp [hz] at h
      · right
        simp only [hz, if_false] at h
        cases h
        intro r hr
        obtain ⟨i, _, hi⟩ := List.mem_map.mp hr
        simp [← hi, audioRow]

/-- Every row produced by the inner visual loop has width 4. -/
theorem evfGo_widths (L : Libs) (g : Gray) (fs : List Frame) :
    ∀ r ∈ evfGo L g fs, r.length = 4 := by
  induction fs generalizing g with
  | nil => intro r hr; simp [evfGo] at hr
  | cons f rest ih =>
      intro r hr
      simp only [evfGo, List.mem_cons] at hr
      rcases hr with h | h
      · simp [h, visualRow]
      · exact ih _ r h

/-- Every visual feature row has width 4. -/
theorem extractVisualFeatures_widths (L : Libs) (fs : List Frame) :
    ∀ r ∈ extractVisualFeatures L fs, r.length = 4 := by
  cases fs with
  | nil => intro r hr; simp [extractVisualFeatures] at hr
  | cons f rest =>
      intro r hr
      simp only [extractVisualFeatures, List.mem_cons] at hr
      rcases hr with h | h
      · simp [h, visualRow]
      · exact evfGo_widths L _ rest r h

/-- Standardization preserves the row count. -/
theorem fitTransform_length (L : Libs) (A : List (List ℚ)) :
    (fitTransform L A).length = A.length := by
  simp [fitTransform]

/-- Every standardized row has the width of the first input row. -/
theorem fitTransform_mem_length (L : Libs) (A : List (List ℚ)) (r : List ℚ)
    (h : r ∈ fitTransform L A) : r.length = (A.headD []).length := by
  unfold fitTransform at h
  obtain ⟨s, _, hs⟩ := List.mem_map.mp h
  simp [← hs]

/-- numpy's matrix-vector product raises a shape error as soon as some row
length differs from the vector length. -/
theorem matVecDot_none (A : List (List ℚ)) (w : List ℚ) (r : List ℚ)
    (hr : r ∈ A) (hl : r.length ≠ w.length) : matVecDot A w = none := by
  unfold matVecDot
  rw [if_neg]
  intro hall
  exact hl (by simpa using (List.all_eq_true.mp hall r hr))

/-- The central defect of `detect_moments`: whenever both feature sequences
are nonempty, the combined matrix has 5 or 7 columns while the weight vector
has 6 entries, so `np.dot` raises and the whole call fails. -/
theorem detectMoments_scoring_error (L : Libs) (st : MCState) (K : ℕ) (d : ℚ)
    (af : List (List ℚ)) (ha : extractAudioFeatures L st.video = .ok af)
    (hane : af ≠ []) (hvne : extractVisualFeatures L st.video.frames ≠ []) :
    detectMoments L st K d = .error "matmul dimension mismatch" := by
  obtain ⟨a, as, rfl⟩ := List.exists_cons_of_ne_nil hane
  obtain ⟨b, bs, hvf⟩ := List.exists_cons_of_ne_nil hvne
  have hcond : 0 < (a :: as).length ∧ 0 < (extractVisualFeatures L st.video.frames).length := by
    constructor
    · simp
    · rw [hvf]; simp
  have hmin : min (a :: as).length (extractVisualFeatures L st.video.frames).length =
      (min as.length bs.length) + 1 := by
    rw [hvf]; simp [List.length_cons, Nat.succ_min_succ]
  have hwa : a.length = 1 ∨ a.length = 3 := by
    rcases extractAudioFeatures_widths L st.video _ ha with h | h
    · left; exact h a (by simp)
    · right; exact h a (by simp)
  have hwb : b.length = 4 := by
    refine extractVisualFeatures_widths L st.video.frames b ?_
    rw [hvf]; simp
  unfold detectMoments
  rw [ha]
  simp only
  rw [if_pos hcond, hmin, hvf]
  simp only [List.take_succ_cons, List.zipWith_cons_cons]
  have hmem : ∀ r ∈ fitTransform L ((a ++ b) ::
      List.zipWith (fun x y => x ++ y) (as.take (min as.length bs.length))
        (bs.take (min as.length bs.length))), r.length = a.length + b.length := by
    intro r hrm
    have := fitTransform_mem_length L _ r hrm
    simpa using this
  have hne : fitTransform L ((a ++ b) ::
      List.zipWith (fun x y => x ++ y) (as.take (min as.length bs.length))
        (bs.take (min as.length bs.length))) ≠ [] := by
    intro hc
    have := fitTransform_length L ((a ++ b) ::
      List.zipWith (fun x y => x ++ y) (as.take (min as.length bs.length))
        (bs.take (min as.length bs.length)))
    rw [hc] at this
    simp at this
  obtain ⟨r0, r0s, hr0⟩ := List.exists_cons_of_ne_nil hne
  have hr0m : r0 ∈ fitTransform L ((a ++ b) ::
      List.zipWith (fun x y => x ++ y) (as.take (min as.length bs.length))
        (bs.take (min as.length bs.length))) := by rw [hr0]; simp
  have hr0l : r0.length ≠ weights.length := by
    have := hmem r0 hr0m
    rw [this, hwb]
    rcases hwa with h | h <;> rw [h] <;> simp [weights]
  rw [matVecDot_none _ _ r0 hr0m hr0l]

/-- If `detect_moments` returns at all, it returns the state unchanged: with
an empty feature sequence the scoring branch is skipped, and with nonempty
feature sequences scoring raises the shape error, so the moment-building
code is unreachable. -/
theorem detectMoments_ok_eq (L : Libs) (st : MCState) (K : ℕ) (d : ℚ) (st2 : MCState)
    (h : detectMoments L st K d = .ok st2) : st2 = st := by
  cases haudio : extractAudioFeatures L st.video with
  | error e =>
      unfold detectMoments at h
      rw [haudio] at h
      simp at h
  | ok af =>
      by_cases hane : af = []
      · unfold detectMoments at h
        rw [haudio] at h
        simp only at h
        rw [if_neg (by simp [hane])] at h
        exact (Except.ok.inj h).symm
      · by_cases hvne : extractVisualFeatures L st.video.frames = []
        · unfold detectMoments at h
          rw [haudio] at h
          simp only at h
          rw [if_neg (by simp [hvne])] at h
          exact (Except.ok.inj h).symm
        · rw [detectMoments_scoring_error L st K d af haudio hane hvne] at h
          simp at h

/-- One fixed, concrete behaviour of the external libraries, used to
evaluate the pipeline on concrete inputs. -/
def concreteLibs : Libs :=
  ⟨fun l => l, fun q => q, fun f => f.map (fun r => r.map (fun _ => 0)), fun g => g, true⟩

/-- A small concrete video with an audio track (five audio samples) and one
1-by-1 frame: both feature sequences are nonempty. -/
def vidAudio : VideoInput :=
  { fps := 30, duration := 10,
    audioTrack := some [[1], [0], [1], [0], [1]],
    frames := [[[[1, 2, 3]]]] }

/-- A degenerate concrete video: no audio track, no frames, zero duration. -/
def vidEmpty : VideoInput :=
  { fps := 30, duration := 0, audioTrack := none, frames := [] }

/-- At 30 fps the audio window is 3 samples. -/
theorem frameLength_30 : frameLength 30 = 3 := by norm_num [frameLength, pyInt]

/-- At 30 fps the audio hop is 1 sample. -/
theorem hopLength_30 : hopLength 30 = 1 := by norm_num [hopLength, frameLength, pyInt]

/-- Concrete evaluation of the audio extractor on `vidAudio`: two windows. -/
theorem extractAudio_vidAudio :
    extractAudioFeatures concreteLibs vidAudio = .ok
      [audioRow concreteLibs (listSlice ([[1], [0], [1], [0], [1]].map meanQ) 0 3),
       audioRow concreteLibs (listSlice ([[1], [0], [1], [0], [1]].map meanQ) 1 3)] := by
  unfold extractAudioFeatures vidAudio
  simp only [frameLength_30, hopLength_30]
  rw [if_neg (by norm_num)]
  congr 1

/-- On the concrete audio-bearing video, `detect_moments` raises the
dimensionality error. -/
theorem detect_vidAudio_error :
    detectMoments concreteLibs (initState vidAudio) 10 3 = .error "matmul dimension mismatch" :=
  detectMoments_scoring_error concreteLibs (initState vidAudio) 10 3 _ extractAudio_vidAudio
    (by simp) (by simp [initState, vidAudio, extractVisualFeatures])

/-- On the degenerate video both feature sequences are empty and
`detect_moments` returns with the state unchanged (no moments). -/
theorem detect_vidEmpty_ok :
    detectMoments concreteLibs (initState vidEmpty) 10 3 = .ok (initState vidEmpty) := by
  have ha : extractAudioFeatures concreteLibs vidEmpty = .ok [] := by
    unfold extractAudioFeatures vidEmpty
    simp only
    rw [if_neg (by norm_num [pyInt])]
    norm_num [pyInt]
  unfold detectMoments
  rw [show (initState vidEmpty).video = vidEmpty from rfl, ha]
  simp [extractVisualFeatures, vidEmpty]

/-- C1 (amended): on every run over a video with an audio track whose audio
and visual feature sequences are nonempty, the scoring step does NOT
complete: the combined feature matrix has 7 columns (3 audio + 4 visual)
while the weight vector has 6 entries, so applying the weights raises a
dimensionality error and `detect_moments` fails. -/
theorem claim_C1_scoring_raises (L : Libs) (st : MCState) (K : ℕ) (d : ℚ)
    (cs : List (List ℚ)) (_hAud : st.video.audioTrack = some cs)
    (af : List (List ℚ)) (ha : extractAudioFeatures L st.video = .ok af) (hane : af ≠ [])
    (hvne : extractVisualFeatures L st.video.frames ≠ []) :
    detectMoments L st K d = .error "matmul dimension mismatch" :=
  detectMoments_scoring_error L st K d af ha hane hvne

/-- C1 counterexample: on a concrete video with an audio track, the scoring
step raises the dimensionality error instead of completing, refuting the
claim that applying the 6-element weight vector raises no error. -/
theorem claim_C1_counterexample :
    detectMoments concreteLibs (initState vidAudio) 10 3 = .error "matmul dimension mismatch" :=
  detect_vidAudio_error

/-- C1 witness: the amended theorem applied at the concrete input. -/
theorem claim_C1_witness :
    detectMoments concreteLibs (initState vidAudio) 10 3 = .error "matmul dimension mismatch" :=
  claim_C1_scoring_raises concreteLibs (initState vidAudio) 10 3 [[1], [0], [1], [0], [1]] rfl
    _ extractAudio_vidAudio (by simp) (by simp [initState, vidAudio, extractVisualFeatures])

/-- C2: the upload handler catches the processing exception and returns a
500 response WITHOUT calling `catcher.close()` (the `finally` block only
deletes the uploaded file), so the opened video handle is not released on
the exception path.  Evaluated at a concrete failing input. -/
theorem claim_C2_close_skipped :
    uploadVideo concreteLibs vidAudio "trailer_v" =
      UploadOutcome.mk (.serverError "Processing failed: matmul dimension mismatch") false true := by
  unfold uploadVideo
  rw [detect_vidAudio_error]
  rfl

/-- C3: every moment list returned by `detect_moments` on a freshly opened
catcher is sorted by non-decreasing start time and every moment satisfies
0 <= start < end <= duration. -/
theorem claim_C3_sorted_bounded (L : Libs) (v : VideoInput) (K : ℕ) (d : ℚ)
    (st2 : MCState) (h : detectMoments L (initState v) K d = .ok st2) :
    st2.moments.Sorted leByStart ∧
      ∀ m ∈ st2.moments, 0 ≤ m.startT ∧ m.startT < m.endT ∧ m.endT ≤ v.duration := by
  rw [detectMoments_ok_eq L (initState v) K d st2 h]
  simp [initState]

/-- C3 witness: the theorem applied to a concrete completed run. -/
theorem claim_C3_witness :
    (initState vidEmpty).moments.Sorted leByStart ∧
      ∀ m ∈ (initState vidEmpty).moments,
        0 ≤ m.startT ∧ m.startT < m.endT ∧ m.endT ≤ vidEmpty.duration :=
  claim_C3_sorted_bounded concreteLibs vidEmpty 10 3 (initState vidEmpty) detect_vidEmpty_ok

/-- C10: when the instance's moment list is empty, `generate_trailer` first
runs `detect_moments` with the default parameters `num_moments = 10`,
`moment_duration = 3.0`, and then assembles the trailer from its result. -/
theorem claim_C10_default_detection (L : Libs) (st : MCState) (out : String) (maxDur : ℚ)
    (h : st.moments = []) :
    generateTrailer L st out maxDur =
      match detectMoments L st 10 3 with
      | .error e => .error e
      | .ok st2 => assembleStage L st2 out maxDur := by
  unfold generateTrailer
  rw [h]
  rfl

/-- C10 witness: the theorem applied at a concrete state with no moments. -/
theorem claim_C10_witness :
    (initState vidEmpty).moments = [] ∧
      generateTrailer concreteLibs (initState vidEmpty) "out" 30 =
        match detectMoments concreteLibs (initState vidEmpty) 10 3 with
        | .error e => .error e
        | .ok st2 => assembleStage concreteLibs st2 "out" 30 :=
  ⟨rfl, claim_C10_default_detection concreteLibs (initState vidEmpty) "out" 30 rfl⟩

/-- The admitted clips are an unmodified chronological front segment of the
moment list: no admitted moment is trimmed. -/
theorem admitClips_take (ms : List Moment) (b t : ℚ) :
    admitClips ms b t = ms.take (admitClips ms b t).length := by
  induction ms generalizing t with
  | nil => simp [admitClips]
  | cons m rest ih =>
      by_cases h : b ≤ t
      · simp [admitClips, h]
      · simp only [admitClips, if_neg h, List.length_cons, List.take_succ_cons]
        congr 1
        exact ih _

/-- Moment `i` is admitted exactly when every accumulated duration checked up
to and including the check before moment `i` is still below the budget. -/
theorem admitClips_mem_iff (ms : List Moment) (b t : ℚ) (i : ℕ) :
    i < (admitClips ms b t).length ↔
      i < ms.length ∧ ∀ k, k ≤ i →
        t + ((ms.take k).map (fun m => m.endT - m.startT)).sum < b := by
  induction ms generalizing t i with
  | nil => simp [admitClips]
  | cons m rest ih =>
      by_cases h : b ≤ t
      · simp only [admitClips, if_pos h, List.length_nil]
        constructor
        · omega
        · rintro ⟨_, hall⟩
          have h0 := hall 0 (Nat.zero_le i)
          simp at h0
          exact absurd h0 (not_lt.mpr h)
      · simp only [admitClips, if_neg h, List.length_cons]
        cases i with
        | zero =>
            constructor
            · intro _
              refine ⟨by simp, ?_⟩
              intro k hk
              have hk0 : k = 0 := Nat.le_zero.mp hk
              subst hk0
              simpa using lt_of_not_le h
            · intro _
              simp
        | succ i' =>
            rw [Nat.succ_lt_succ_iff, Nat.succ_lt_succ_iff, ih (t + (m.endT - m.startT)) i']
            constructor
            · rintro ⟨hlen, hall⟩
              refine ⟨hlen, ?_⟩
              intro k hk
              cases k with
              | zero => simpa using lt_of_not_le h
              | succ k' =>
                  have := hall k' (Nat.succ_le_succ_iff.mp hk)
                  simpa [List.take_succ_cons, add_assoc] using this
            · rintro ⟨hlen, hall⟩
              refine ⟨hlen, ?_⟩
              intro k hk
              have := hall (k + 1) (Nat.succ_le_succ hk)
              simpa [List.take_succ_cons, add_assoc] using this

/-- C4: the assembler iterates moments in order and admits moment `i` exactly
when every accumulated duration before it is still below the budget; the
admitted list is an untrimmed front segment of the moments; and for moments
with durations [10, 10, 10] and budget 15 exactly the first two are admitted
(20 s total). -/
theorem claim_C4_greedy_budget :
    (∀ (ms : List Moment) (b : ℚ),
        admitClips ms b 0 = ms.take (admitClips ms b 0).length ∧
        ∀ i : ℕ, i < (admitClips ms b 0).length ↔
          (i < ms.length ∧ ∀ k, k ≤ i →
            ((ms.take k).map (fun m => m.endT - m.startT)).sum < b)) ∧
      admitClips [⟨0, 10, 1⟩, ⟨10, 20, 1⟩, ⟨20, 30, 1⟩] 15 0 =
        [⟨0, 10, 1⟩, ⟨10, 20, 1⟩] := by
  constructor
  · intro ms b
    refine ⟨admitClips_take ms b 0, ?_⟩
    intro i
    have := admitClips_mem_iff ms b 0 i
    simpa using this
  · norm_num [admitClips]

/-- C4 witness: the stopping rule evaluated on the concrete 10/10/10 list
with budget 15. -/
theorem claim_C4_witness :
    admitClips [⟨0, 10, 1⟩, ⟨10, 20, 1⟩, ⟨20, 30, 1⟩] 15 0 =
      [⟨0, 10, 1⟩, ⟨10, 20, 1⟩] :=
  claim_C4_greedy_budget.2

/-- C5: whenever `generate_trailer` completes and the admitted-clip list is
empty, it returns `False` and writes no output file (the completed run is
distinct from a raised exception, which is the `.error` case). -/
theorem claim_C5_empty_admitted (L : Libs) (st : MCState) (out : String) (maxDur : ℚ)
    (st2 : MCState) (succ : Bool) (o : Option String)
    (h : generateTrailer L st out maxDur = .ok (st2, succ, o))
    (hempty : admitClips st2.moments maxDur 0 = []) :
    succ = false ∧ o = none := by
  unfold generateTrailer at h
  cases hpre : (if st.moments.isEmpty then detectMoments L st 10 3 else .ok st) with
  | error e => rw [hpre] at h; simp at h
  | ok st3 =>
      rw [hpre] at h
      simp only at h
      unfold assembleStage at h
      by_cases hc : (admitClips st3.moments maxDur 0).isEmpty
      · rw [if_pos hc] at h
        have h2 := Except.ok.inj h
        have hsucc : succ = false := by
          have := congrArg (fun p => p.2.1) h2
          simpa using this.symm
        have ho : o = none := by
          have := congrArg (fun p => p.2.2) h2
          simpa using this.symm
        exact ⟨hsucc, ho⟩
      · exfalso
        by_cases hr : L.renderOk
        · rw [if_neg hc, if_pos hr] at h
          have h2 := Except.ok.inj h
          have hst : st2 = st3 := by
            have := congrArg (fun p => p.1) h2
            simpa using this.symm
          rw [hst] at hempty
          rw [hempty] at hc
          simp at hc
        · rw [if_neg hc, if_neg hr] at h
          simp at h

/-- A concrete catcher state with one detected moment, used with a zero
budget so that the assembler admits nothing. -/
def stC5 : MCState := ⟨vidEmpty, [⟨0, 1, 0⟩]⟩

/-- C5 witness: a concrete completed run with an empty admitted list returns
`False` and no output file. -/
theorem claim_C5_witness :
    generateTrailer concreteLibs stC5 "out" 0 = .ok (stC5, false, none) ∧
      admitClips stC5.moments 0 0 = [] ∧
      (false = false ∧ (none : Option String) = none) := by
  have hadm : admitClips stC5.moments 0 0 = [] := by norm_num [stC5, admitClips]
  have hgen : generateTrailer concreteLibs stC5 "out" 0 = .ok (stC5, false, none) := by
    unfold generateTrailer
    rw [if_neg (by simp [stC5])]
    simp only
    unfold assembleStage
    rw [hadm]
    rfl
  exact ⟨hgen, hadm, claim_C5_empty_admitted concreteLibs stC5 "out" 0 stC5 false none hgen hadm⟩

/-- C6: at a 30 fps video with 44.1 kHz audio, the code's audio window is
`int(0.1 * fps) = 3` samples, i.e. 3/44100 s (well under a millisecond), not
approximately 100 ms (which would be `0.1 * 44100 = 4410` samples); moreover
the hop `int(3 / 2) = 1` is not exactly half the window. -/
theorem claim_C6_window_mismatch :
    frameLength 30 = 3 ∧ hopLength 30 = 1 ∧
      pyInt ((1 / 10 : ℚ) * 44100) = 4410 ∧
      frameLength 30 ≠ pyInt ((1 / 10 : ℚ) * 44100) ∧
      ((frameLength 30 : ℚ) / 44100) < 1 / 1000 ∧
      (hopLength 30 : ℚ) ≠ (frameLength 30 : ℚ) / 2 := by
  have h1 := frameLength_30
  have h2 := hopLength_30
  refine ⟨h1, h2, ?_, ?_, ?_, ?_⟩
  · norm_num [pyInt]
  · rw [h1]; norm_num [pyInt]
  · rw [h1]; norm_num
  · rw [h1, h2]; norm_num

/-- C9: with no audio track the fallback feature sequence has exactly
`int(duration * fps)` rows and every row is the single zero value `[0]`
(one column). -/
theorem claim_C9_noaudio_fallback (L : Libs) (v : VideoInput)
    (hA : v.audioTrack = none) (hn : 0 ≤ pyInt (v.duration * v.fps)) :
    extractAudioFeatures L v =
        .ok (List.replicate (pyInt (v.duration * v.fps)).toNat [(0 : ℚ)]) ∧
      ((List.replicate (pyInt (v.duration * v.fps)).toNat [(0 : ℚ)]).length : ℤ) =
        pyInt (v.duration * v.fps) ∧
      ∀ r ∈ List.replicate (pyInt (v.duration * v.fps)).toNat [(0 : ℚ)],
        r = [(0 : ℚ)] ∧ r.length = 1 := by
  refine ⟨?_, ?_, ?_⟩
  · unfold extractAudioFeatures
    rw [hA]
    simp only
    rw [if_neg (not_lt.mpr hn)]
  · simp [Int.toNat_of_nonneg hn]
  · intro r hr
    have := List.eq_of_mem_replicate hr
    exact ⟨this, by simp [this]⟩

/-- A concrete audio-free video whose duration times frame rate truncates
from 3.5 to 3. -/
def vidNoAudio : VideoInput := { fps := 1, duration := 7 / 2, audioTrack := none, frames := [] }

/-- C9 witness: the fallback theorem applied to the concrete audio-free
video. -/
theorem claim_C9_witness :
    vidNoAudio.audioTrack = none ∧ 0 ≤ pyInt (vidNoAudio.duration * vidNoAudio.fps) ∧
      (extractAudioFeatures concreteLibs vidNoAudio =
          .ok (List.replicate (pyInt (vidNoAudio.duration * vidNoAudio.fps)).toNat [(0 : ℚ)]) ∧
        ((List.replicate (pyInt (vidNoAudio.duration * vidNoAudio.fps)).toNat
            [(0 : ℚ)]).length : ℤ) = pyInt (vidNoAudio.duration * vidNoAudio.fps) ∧
        ∀ r ∈ List.replicate (pyInt (vidNoAudio.duration * vidNoAudio.fps)).toNat [(0 : ℚ)],
          r = [(0 : ℚ)] ∧ r.length = 1) := by
  have h2 : 0 ≤ pyInt (vidNoAudio.duration * vidNoAudio.fps) := by norm_num [vidNoAudio, pyInt]
  exact ⟨rfl, h2, claim_C9_noaudio_fallback concreteLibs vidNoAudio rfl h2⟩

/-- `np.argsort` (modelled as a stable sort of positions) permutes the
positions `0, ..., n-1`. -/
theorem argsortAsc_perm (xs : List ℚ) : (argsortAsc xs).Perm (List.range xs.length) :=
  List.perm_insertionSort _ _

/-- The argsort of `xs` has the length of `xs`. -/
theorem argsortAsc_length (xs : List ℚ) : (argsortAsc xs).length = xs.length := by
  rw [(argsortAsc_perm xs).length_eq, List.length_range]

/-- The argsort positions are ordered by ascending value. -/
theorem argsortAsc_sorted (xs : List ℚ) : (argsortAsc xs).Pairwise (leByVal xs) :=
  List.sorted_insertionSort _ _

/-- Every position below the length occurs in the argsort. -/
theorem argsortAsc_mem (xs : List ℚ) (i : ℕ) (h : i < xs.length) : i ∈ argsortAsc xs :=
  ((argsortAsc_perm xs).mem_iff).mpr (List.mem_range.mpr h)

/-- Splitting the argsort anywhere, every value on the left part is at most
every value on the right part. -/
theorem argsortAsc_split_le (xs : List ℚ) (n : ℕ) :
    ∀ i ∈ (argsortAsc xs).take n, ∀ j ∈ (argsortAsc xs).drop n,
      xs.getD i 0 ≤ xs.getD j 0 := by
  have hs := argsortAsc_sorted xs
  rw [← List.take_append_drop n (argsortAsc xs)] at hs
  exact (List.pairwise_append.mp hs).2.2

/-- For `num_moments >= 1` the moment builder returns exactly
`min num_moments (number of peaks)` moments. -/
theorem buildMoments_length (peaks : List ℕ) (scores : List ℚ) (K : ℕ) (d fps dur : ℚ)
    (hK : 1 ≤ K) :
    (buildMoments peaks scores K d fps dur).length = min K peaks.length := by
  simp only [buildMoments, pySliceLast]
  rw [if_neg (by omega)]
  rw [(List.perm_insertionSort leByStart _).length_eq]
  have hlen := argsortAsc_length (peaks.map (fun p => scores.getD p 0))
  simp only [List.length_map] at hlen
  simp only [List.length_map, List.length_drop, hlen]
  omega

/-- C8 (amended): for every requested count `num_moments >= 1` (the default
is 10), the moment selection of `detect_moments` produces exactly
`min num_moments (number of peaks)` moments (so at most `num_moments`, and
all peaks when fewer exist), and the selected argsort positions are the
top-scoring suffix: every unselected peak's score is at most every selected
peak's score.  For `num_moments = 0` the Python slice `[-0:]` instead
selects ALL peaks (see the counterexample). -/
theorem claim_C8_top_k (peaks : List ℕ) (scores : List ℚ) (K : ℕ) (d fps dur : ℚ)
    (hK : 1 ≤ K) :
    (buildMoments peaks scores K d fps dur).length = min K peaks.length ∧
      (buildMoments peaks scores K d fps dur).length ≤ K ∧
      pySliceLast K (argsortAsc (peaks.map (fun p => scores.getD p 0))) =
        (argsortAsc (peaks.map (fun p => scores.getD p 0))).drop (peaks.length - K) ∧
      ∀ i ∈ (argsortAsc (peaks.map (fun p => scores.getD p 0))).take (peaks.length - K),
        ∀ j ∈ (argsortAsc (peaks.map (fun p => scores.getD p 0))).drop (peaks.length - K),
          (peaks.map (fun p => scores.getD p 0)).getD i 0 ≤
            (peaks.map (fun p => scores.getD p 0)).getD j 0 := by
  refine ⟨buildMoments_length peaks scores K d fps dur hK, ?_, ?_, ?_⟩
  · rw [buildMoments_length peaks scores K d fps dur hK]
    omega
  · simp only [pySliceLast]
    rw [if_neg (by omega)]
    congr 1
    rw [argsortAsc_length]
    simp
  · exact argsortAsc_split_le _ _

/-- C8 counterexample: with `num_moments = 0` and one detected peak, the
selection returns 1 moment, not at most 0: `np.argsort(...)[-0:]` is the
whole array, so a zero request selects every peak. -/
theorem claim_C8_counterexample :
    (buildMoments [1] [0, 5, 0] 0 3 30 100).length = 1 ∧
      ¬((buildMoments [1] [0, 5, 0] 0 3 30 100).length ≤ 0) := by
  constructor
  · norm_num [buildMoments, pySliceLast, argsortAsc, List.range_succ]
  · intro h
    rw [Nat.le_zero] at h
    rw [show (buildMoments [1] [0, 5, 0] 0 3 30 100).length = 1 from by
      norm_num [buildMoments, pySliceLast, argsortAsc, List.range_succ]] at h
    exact one_ne_zero h

/-- C8 witness: the amended theorem applied at `num_moments = 1` with two
peaks. -/
theorem claim_C8_witness :
    (1 : ℕ) ≤ 1 ∧
      ((buildMoments [1, 3] [0, 5, 0, 7, 0] 1 3 30 100).length = min 1 ([1, 3] : List ℕ).length ∧
        (buildMoments [1, 3] [0, 5, 0, 7, 0] 1 3 30 100).length ≤ 1 ∧
        pySliceLast 1 (argsortAsc (([1, 3] : List ℕ).map (fun p => ([0, 5, 0, 7, 0] : List ℚ).getD p 0))) =
          (argsortAsc (([1, 3] : List ℕ).map (fun p => ([0, 5, 0, 7, 0] : List ℚ).getD p 0))).drop
            (([1, 3] : List ℕ).length - 1) ∧
        ∀ i ∈ (argsortAsc (([1, 3] : List ℕ).map
              (fun p => ([0, 5, 0, 7, 0] : List ℚ).getD p 0))).take (([1, 3] : List ℕ).length - 1),
          ∀ j ∈ (argsortAsc (([1, 3] : List ℕ).map
              (fun p => ([0, 5, 0, 7, 0] : List ℚ).getD p 0))).drop (([1, 3] : List ℕ).length - 1),
            (([1, 3] : List ℕ).map (fun p => ([0, 5, 0, 7, 0] : List ℚ).getD p 0)).getD i 0 ≤
              (([1, 3] : List ℕ).map (fun p => ([0, 5, 0, 7, 0] : List ℚ).getD p 0)).getD j 0) :=
  ⟨le_refl 1, claim_C8_top_k [1, 3] [0, 5, 0, 7, 0] 1 3 30 100 (le_refl 1)⟩

/-- The plateau scan never moves backwards. -/
theorem scanAhead_ge (x : List ℚ) (iMax : ℕ) (v : ℚ) :
    ∀ fuel j, j ≤ scanAhead x iMax v fuel j := by
  intro fuel
  induction fuel with
  | zero => intro j; simp [scanAhead]
  | succ f ih =>
      intro j
      unfold scanAhead
      by_cases h : j < iMax ∧ x.getD j 0 = v
      · rw [if_pos h]
        exact le_trans (Nat.le_succ j) (ih (j + 1))
      · rw [if_neg h]

/-- The plateau scan never passes `iMax` when started at or below it. -/
theorem scanAhead_le (x : List ℚ) (iMax : ℕ) (v : ℚ) :
    ∀ fuel j, j ≤ iMax → scanAhead x iMax v fuel j ≤ iMax := by
  intro fuel
  induction fuel with
  | zero => intro j hj; simpa [scanAhead] using hj
  | succ f ih =>
      intro j hj
      unfold scanAhead
      by_cases h : j < iMax ∧ x.getD j 0 = v
      · rw [if_pos h]
        exact ih (j + 1) h.1
      · rw [if_neg h]
        exact hj

/-- Every index strictly between the start of the scan and its result holds
the plateau value. -/
theorem scanAhead_plateau (x : List ℚ) (iMax : ℕ) (v : ℚ) :
    ∀ fuel j, ∀ k, j ≤ k → k < scanAhead x iMax v fuel j → x.getD k 0 = v := by
  intro fuel
  induction fuel with
  | zero =>
      intro j k hjk hk
      simp only [scanAhead] at hk
      omega
  | succ f ih =>
      intro j k hjk hk
      unfold scanAhead at hk
      by_cases h : j < iMax ∧ x.getD j 0 = v
      · rw [if_pos h] at hk
        rcases Nat.eq_or_lt_of_le hjk with rfl | hlt
        · exact h.2
        · exact ih (j + 1) k hlt hk
      · rw [if_neg h] at hk
        omega

/-- Every index recorded by the local-maxima scan lies strictly inside the
sequence, at or after the scan position, and is a (plateau) local maximum:
its neighbours are not larger. -/
theorem lmAux_spec (x : List ℚ) (iMax : ℕ) :
    ∀ fuel i, 1 ≤ i → ∀ p ∈ lmAux x iMax fuel i,
      i ≤ p ∧ 1 ≤ p ∧ p + 1 ≤ iMax ∧
        x.getD (p - 1) 0 ≤ x.getD p 0 ∧ x.getD (p + 1) 0 ≤ x.getD p 0 := by
  intro fuel
  induction fuel with
  | zero => intro i _ p hp; simp [lmAux] at hp
  | succ f ih =>
      intro i hi p hp
      unfold lmAux at hp
      by_cases hiM : i < iMax
      · rw [if_pos hiM] at hp
        by_cases hrise : x.getD (i - 1) 0 < x.getD i 0
        · rw [if_pos hrise] at hp
          set iA := scanAhead x iMax (x.getD i 0) iMax (i + 1) with hiA
          by_cases hfall : x.getD iA 0 < x.getD i 0
          · rw [if_pos hfall] at hp
            have hge : i + 1 ≤ iA := scanAhead_ge x iMax _ iMax (i + 1)
            have hle : iA ≤ iMax := scanAhead_le x iMax _ iMax (i + 1) hiM
            have hplat : ∀ k, i + 1 ≤ k → k < iA → x.getD k 0 = x.getD i 0 :=
              fun k hk1 hk2 => scanAhead_plateau x iMax _ iMax (i + 1) k hk1 hk2
            rcases List.mem_cons.mp hp with rfl | hrest
            · -- p is the recorded midpoint (i + (iA - 1)) / 2
              have hip : i ≤ (i + (iA - 1)) / 2 := by omega
              have hpa : (i + (iA - 1)) / 2 ≤ iA - 1 := by omega
              have hxp : x.getD ((i + (iA - 1)) / 2) 0 = x.getD i 0 := by
                rcases Nat.eq_or_lt_of_le hip with heq | hlt
                · rw [← heq]
                · exact hplat _ (by omega) (by omega)
              refine ⟨hip, by omega, by omega, ?_, ?_⟩
              · have hxm1 : x.getD ((i + (iA - 1)) / 2 - 1) 0 ≤ x.getD i 0 := by
                  rcases Nat.eq_or_lt_of_le hip with heq | hlt
                  · rw [show (i + (iA - 1)) / 2 - 1 = i - 1 by omega]
                    exact le_of_lt hrise
                  · rcases Nat.eq_or_lt_of_le
                        (show i ≤ (i + (iA - 1)) / 2 - 1 by omega) with heq1 | hlt1
                    · exact le_of_eq (by rw [← heq1])
                    · exact le_of_eq (hplat _ (by omega) (by omega))
                rw [hxp]
                exact hxm1
              · rw [hxp]
                by_cases hmid : (i + (iA - 1)) / 2 + 1 < iA
                · exact le_of_eq (hplat _ (by omega) hmid)
                · rw [show (i + (iA - 1)) / 2 + 1 = iA by omega]
                  exact le_of_lt hfall
            · have := ih (iA + 1) (by omega) p hrest
              exact ⟨by omega, this.2.1, this.2.2.1, this.2.2.2.1, this.2.2.2.2⟩
          · rw [if_neg hfall] at hp
            have := ih (i + 1) (by omega) p hp
            exact ⟨by omega, this.2.1, this.2.2.1, this.2.2.2.1, this.2.2.2.2⟩
        · rw [if_neg hrise] at hp
          have := ih (i + 1) (by omega) p hp
          exact ⟨by omega, this.2.1, this.2.2.1, this.2.2.2.1, this.2.2.2.2⟩
      · rw [if_neg hiM] at hp
        simp at hp


/-- The local-maxima scan records strictly increasing indices. -/
theorem lmAux_pairwise (x : List ℚ) (iMax : ℕ) :
    ∀ fuel i, 1 ≤ i → (lmAux x iMax fuel i).Pairwise (· < ·) := by
  intro fuel
  induction fuel with
  | zero => intro i _; simp [lmAux]
  | succ f ih =>
      intro i hi
      unfold lmAux
      by_cases hiM : i < iMax
      · rw [if_pos hiM]
        by_cases hrise : x.getD (i - 1) 0 < x.getD i 0
        · rw [if_pos hrise]
          set iA := scanAhead x iMax (x.getD i 0) iMax (i + 1) with hiA
          by_cases hfall : x.getD iA 0 < x.getD i 0
          · rw [if_pos hfall]
            have hge : i + 1 ≤ iA := scanAhead_ge x iMax _ iMax (i + 1)
            refine List.Pairwise.cons ?_ (ih (iA + 1) (by omega))
            intro q hq
            have := (lmAux_spec x iMax f (iA + 1) (by omega) q hq).1
            omega
          · rw [if_neg hfall]
            exact ih (i + 1) (by omega)
        · rw [if_neg hrise]
          exact ih (i + 1) (by omega)
      · rw [if_neg hiM]
        exact List.Pairwise.nil

/-- Every scipy local maximum is strictly inside the sequence and its
neighbours do not exceed it. -/
theorem localMaxima_spec (x : List ℚ) :
    ∀ p ∈ localMaxima x, 1 ≤ p ∧ p + 1 ≤ x.length - 1 ∧
      x.getD (p - 1) 0 ≤ x.getD p 0 ∧ x.getD (p + 1) 0 ≤ x.getD p 0 := by
  intro p hp
  have := lmAux_spec x (x.length - 1) x.length 1 (le_refl 1) p hp
  exact ⟨this.2.1, this.2.2.1, this.2.2.2.1, this.2.2.2.2⟩

/-- The scipy local maxima are strictly increasing. -/
theorem localMaxima_pairwise (x : List ℚ) : (localMaxima x).Pairwise (· < ·) :=
  lmAux_pairwise x (x.length - 1) x.length 1 (le_refl 1)

/-- The left clearing loop never resurrects a cleared peak. -/
theorem clearLeft_mono (peaks : List ℕ) (dist pj : ℕ) :
    ∀ c keep k, clearLeft peaks dist pj c keep k = true → keep k = true := by
  intro c
  induction c with
  | zero => intro keep k h; exact h
  | succ c ih =>
      intro keep k h
      unfold clearLeft at h
      by_cases hc : (pj : ℤ) - (peaks.getD c 0 : ℤ) < (dist : ℤ)
      · rw [if_pos hc] at h
        have := ih _ k h
        unfold setFalse at this
        by_cases hk : k = c
        · rw [if_pos hk] at this; exact absurd this (by simp)
        · rw [if_neg hk] at this; exact this
      · rw [if_neg hc] at h
        exact h

/-- The right clearing loop never resurrects a cleared peak. -/
theorem clearRight_mono (peaks : List ℕ) (m dist pj : ℕ) :
    ∀ fuel k0 keep k, clearRight peaks m dist pj fuel k0 keep k = true → keep k = true := by
  intro fuel
  induction fuel with
  | zero => intro k0 keep k h; exact h
  | succ f ih =>
      intro k0 keep k h
      unfold clearRight at h
      by_cases hk0 : k0 < m
      · rw [if_pos hk0] at h
        by_cases hc : (peaks.getD k0 0 : ℤ) - (pj : ℤ) < (dist : ℤ)
        · rw [if_pos hc] at h
          have := ih _ _ k h
          unfold setFalse at this
          by_cases hk : k = k0
          · rw [if_pos hk] at this; exact absurd this (by simp)
          · rw [if_neg hk] at this; exact this
        · rw [if_neg hc] at h
          exact h
      · rw [if_neg hk0] at h
        exact h

/-- The distance-selection loop never resurrects a cleared peak. -/
theorem sbpdGo_mono (peaks : List ℕ) (m dist : ℕ) :
    ∀ ord keep k, sbpdGo peaks m dist ord keep k = true → keep k = true := by
  intro ord
  induction ord with
  | nil => intro keep k h; exact h
  | cons j rest ih =>
      intro keep k h
      unfold sbpdGo at h
      by_cases hj : keep j = true
      · rw [if_pos hj] at h
        have h2 := ih _ k h
        have h3 := clearRight_mono peaks m dist (peaks.getD j 0) m (j + 1) _ k h2
        exact clearLeft_mono peaks dist (peaks.getD j 0) j keep k h3
      · rw [if_neg hj] at h
        exact ih _ k h

/-- For position-sorted peaks the left while loop clears exactly the peaks
below the current one that are closer than the distance. -/
theorem clearLeft_spec (peaks : List ℕ) (dist pj : ℕ) :
    ∀ c keep,
      (∀ a b : ℕ, a ≤ b → b < c → peaks.getD a 0 ≤ peaks.getD b 0) →
      ∀ k, clearLeft peaks dist pj c keep k =
        if k < c ∧ (pj : ℤ) - (peaks.getD k 0 : ℤ) < (dist : ℤ) then false else keep k := by
  intro c
  induction c with
  | zero =>
      intro keep _ k
      rw [if_neg (by omega)]
      rfl
  | succ c ih =>
      intro keep hmono k
      unfold clearLeft
      by_cases hc : (pj : ℤ) - (peaks.getD c 0 : ℤ) < (dist : ℤ)
      · rw [if_pos hc]
        rw [ih (setFalse c keep) (fun a b hab hb => hmono a b hab (by omega)) k]
        by_cases h1 : k < c ∧ (pj : ℤ) - (peaks.getD k 0 : ℤ) < (dist : ℤ)
        · rw [if_pos h1, if_pos ⟨by omega, h1.2⟩]
        · rw [if_neg h1]
          by_cases hk : k = c
          · subst hk
            rw [if_pos ⟨by omega, hc⟩]
            unfold setFalse
            rw [if_pos rfl]
          · unfold setFalse
            rw [if_neg hk]
            by_cases h2 : k < c + 1 ∧ (pj : ℤ) - (peaks.getD k 0 : ℤ) < (dist : ℤ)
            · exact absurd ⟨by omega, h2.2⟩ h1
            · rw [if_neg h2]
      · rw [if_neg hc]
        have hnone : ∀ k', k' < c + 1 → ¬((pj : ℤ) - (peaks.getD k' 0 : ℤ) < (dist : ℤ)) := by
          intro k' hk'
          have hle := hmono k' c (by omega) (by omega)
          omega
        by_cases h2 : k < c + 1 ∧ (pj : ℤ) - (peaks.getD k 0 : ℤ) < (dist : ℤ)
        · exact absurd h2.2 (hnone k h2.1)
        · rw [if_neg h2]

/-- For position-sorted peaks the right while loop clears exactly the peaks
from its start that are below `m` and closer than the distance. -/
theorem clearRight_spec (peaks : List ℕ) (m dist pj : ℕ) :
    ∀ fuel k0 keep,
      m - k0 ≤ fuel →
      (∀ a b : ℕ, a ≤ b → b < m → peaks.getD a 0 ≤ peaks.getD b 0) →
      ∀ k, clearRight peaks m dist pj fuel k0 keep k =
        if k0 ≤ k ∧ k < m ∧ (peaks.getD k 0 : ℤ) - (pj : ℤ) < (dist : ℤ) then false
        else keep k := by
  intro fuel
  induction fuel with
  | zero =>
      intro k0 keep hfuel _ k
      rw [if_neg (by omega)]
      rfl
  | succ f ih =>
      intro k0 keep hfuel hmono k
      unfold clearRight
      by_cases hk0 : k0 < m
      · rw [if_pos hk0]
        by_cases hc : (peaks.getD k0 0 : ℤ) - (pj : ℤ) < (dist : ℤ)
        · rw [if_pos hc]
          rw [ih (k0 + 1) (setFalse k0 keep) (by omega) hmono k]
          by_cases h1 : k0 + 1 ≤ k ∧ k < m ∧ (peaks.getD k 0 : ℤ) - (pj : ℤ) < (dist : ℤ)
          · rw [if_pos h1, if_pos ⟨by omega, h1.2⟩]
          · rw [if_neg h1]
            by_cases hk : k = k0
            · subst hk
              rw [if_pos ⟨le_refl k, hk0, hc⟩]
              unfold setFalse
              rw [if_pos rfl]
            · unfold setFalse
              rw [if_neg hk]
              by_cases h2 : k0 ≤ k ∧ k < m ∧ (peaks.getD k 0 : ℤ) - (pj : ℤ) < (dist : ℤ)
              · exact absurd ⟨by omega, h2.2⟩ h1
              · rw [if_neg h2]
        · rw [if_neg hc]
          have hnone : ∀ k', k0 ≤ k' → k' < m →
              ¬((peaks.getD k' 0 : ℤ) - (pj : ℤ) < (dist : ℤ)) := by
            intro k' hk1 hk2
            have hle := hmono k0 k' hk1 hk2
            omega
          by_cases h2 : k0 ≤ k ∧ k < m ∧ (peaks.getD k 0 : ℤ) - (pj : ℤ) < (dist : ℤ)
          · exact absurd h2.2.2 (hnone k h2.1 h2.2.1)
          · rw [if_neg h2]
      · rw [if_neg hk0]
        rw [if_neg (by omega)]

/-- Processing a kept peak clears every other peak within the distance. -/
theorem clearBoth_clears (peaks : List ℕ) (m dist : ℕ) (j : ℕ) (keep : ℕ → Bool)
    (hj : j < m)
    (hmono : ∀ a b : ℕ, a ≤ b → b < m → peaks.getD a 0 ≤ peaks.getD b 0)
    (k : ℕ) (hk : k < m) (hne : k ≠ j)
    (hclose : |(peaks.getD j 0 : ℤ) - (peaks.getD k 0 : ℤ)| < (dist : ℤ)) :
    clearRight peaks m dist (peaks.getD j 0) m (j + 1)
      (clearLeft peaks dist (peaks.getD j 0) j keep) k = false := by
  have hc2 := abs_lt.mp hclose
  rw [clearRight_spec peaks m dist (peaks.getD j 0) m (j + 1) _ (by omega) hmono k]
  by_cases hkj : k < j
  · rw [if_neg (by omega)]
    rw [clearLeft_spec peaks dist (peaks.getD j 0) j keep
      (fun a b hab hb => hmono a b hab (by omega)) k]
    have hle := hmono k j (le_of_lt hkj) hj
    rw [if_pos ⟨hkj, by omega⟩]
  · have hkj2 : j < k := by omega
    have hle := hmono j k (le_of_lt hkj2) hk
    rw [if_pos ⟨by omega, hk, by omega⟩]

/-- After the priority loop, two distinct peaks closer than the distance are
never both kept: whichever of the two is processed first while still kept
clears the other, and cleared peaks stay cleared. -/
theorem sbpdGo_not_both (peaks : List ℕ) (m dist : ℕ)
    (hmono : ∀ a b : ℕ, a ≤ b → b < m → peaks.getD a 0 ≤ peaks.getD b 0) :
    ∀ ord keep j1 j2, j1 ∈ ord → j2 ∈ ord → j1 < m → j2 < m → j1 ≠ j2 →
      |(peaks.getD j1 0 : ℤ) - (peaks.getD j2 0 : ℤ)| < (dist : ℤ) →
      ¬(sbpdGo peaks m dist ord keep j1 = true ∧ sbpdGo peaks m dist ord keep j2 = true) := by
  intro ord
  induction ord with
  | nil => intro keep j1 j2 h1; simp at h1
  | cons j rest ih =>
      intro keep j1 j2 h1 h2 hj1 hj2 hne hclose hboth
      unfold sbpdGo at hboth
      by_cases hkeep : keep j = true
      · rw [if_pos hkeep] at hboth
        rcases List.mem_cons.mp h1 with rfl | hr1
        · rcases List.mem_cons.mp h2 with rfl | hr2
          · exact hne rfl
          · have hc := clearBoth_clears peaks m dist j1 keep hj1 hmono j2 hj2
              (Ne.symm hne) hclose
            have hmon := sbpdGo_mono peaks m dist rest _ j2 hboth.2
            rw [hc] at hmon
            exact absurd hmon (by simp)
        · rcases List.mem_cons.mp h2 with rfl | hr2
          · have hclose2 : |(peaks.getD j2 0 : ℤ) - (peaks.getD j1 0 : ℤ)| < (dist : ℤ) := by
              rw [abs_sub_comm]
              exact hclose
            have hc := clearBoth_clears peaks m dist j2 keep hj2 hmono j1 hj1 hne hclose2
            have hmon := sbpdGo_mono peaks m dist rest _ j1 hboth.1
            rw [hc] at hmon
            exact absurd hmon (by simp)
          · exact ih _ j1 j2 hr1 hr2 hj1 hj2 hne hclose hboth
      · rw [if_neg hkeep] at hboth
        rcases List.mem_cons.mp h1 with rfl | hr1
        · exact hkeep (sbpdGo_mono peaks m dist rest keep j1 hboth.1)
        · rcases List.mem_cons.mp h2 with rfl | hr2
          · exact hkeep (sbpdGo_mono peaks m dist rest keep j2 hboth.2)
          · exact ih keep j1 j2 hr1 hr2 hj1 hj2 hne hclose hboth

/-- scipy's distance selection returns a subset of the peaks whose members
are pairwise at least `dist` apart (for position-sorted peaks). -/
theorem selectByPeakDistance_spec (peaks : List ℕ) (priority : List ℚ) (dist : ℕ)
    (hlen : priority.length = peaks.length)
    (hmono : ∀ a b : ℕ, a ≤ b → b < peaks.length → peaks.getD a 0 ≤ peaks.getD b 0) :
    (∀ p ∈ selectByPeakDistance peaks priority dist, p ∈ peaks) ∧
      ∀ p ∈ selectByPeakDistance peaks priority dist,
        ∀ q ∈ selectByPeakDistance peaks priority dist,
          p ≠ q → (dist : ℤ) ≤ |(p : ℤ) - (q : ℤ)| := by
  constructor
  · intro p hp
    simp only [selectByPeakDistance, List.mem_map, List.mem_filter, List.mem_range] at hp
    obtain ⟨j, ⟨hjm, _⟩, rfl⟩ := hp
    have hjlen : j < peaks.length := hjm
    rw [List.getD_eq_getElem (l := peaks) (d := 0) hjlen]
    exact List.getElem_mem _
  · intro p hp q hq hne
    simp only [selectByPeakDistance, List.mem_map, List.mem_filter, List.mem_range] at hp hq
    obtain ⟨j1, ⟨hj1m, hk1⟩, rfl⟩ := hp
    obtain ⟨j2, ⟨hj2m, hk2⟩, rfl⟩ := hq
    have hne12 : j1 ≠ j2 := fun hc => hne (by rw [hc])
    have hmem1 : j1 ∈ (argsortAsc priority).reverse := by
      rw [List.mem_reverse]
      exact argsortAsc_mem priority j1 (by omega)
    have hmem2 : j2 ∈ (argsortAsc priority).reverse := by
      rw [List.mem_reverse]
      exact argsortAsc_mem priority j2 (by omega)
    by_contra hlt
    rw [not_le] at hlt
    exact sbpdGo_not_both peaks peaks.length dist hmono
      (argsortAsc priority).reverse (fun _ => true) j1 j2 hmem1 hmem2 hj1m hj2m hne12 hlt
      ⟨hk1, hk2⟩

/-- A strictly increasing list is monotone under positional access. -/
theorem pairwise_lt_getD_mono (l : List ℕ) (h : l.Pairwise (· < ·)) :
    ∀ a b : ℕ, a ≤ b → b < l.length → l.getD a 0 ≤ l.getD b 0 := by
  intro a b hab hb
  rcases Nat.eq_or_lt_of_le hab with rfl | hlt
  · exact le_refl _
  · have ha : a < l.length := by omega
    rw [List.getD_eq_getElem (l := l) (d := 0) ha, List.getD_eq_getElem (l := l) (d := 0) hb]
    exact le_of_lt (List.pairwise_iff_getElem.mp h a b ha hb hlt)

/-- Whatever `find_peaks` returns: every selected peak is a local maximum
with value at least the height threshold, and any two distinct selected
peaks are at least `distance` apart. -/
theorem findPeaks_spec (x : List ℚ) (height : ℚ) (distance : ℤ) (ps : List ℕ)
    (hok : findPeaks x height distance = .ok ps) :
    (∀ p ∈ ps, p ∈ localMaxima x ∧ height ≤ x.getD p 0) ∧
      ∀ p ∈ ps, ∀ q ∈ ps, p ≠ q → distance ≤ |(p : ℤ) - (q : ℤ)| := by
  unfold findPeaks at hok
  by_cases hd : distance < 1
  · rw [if_pos hd] at hok
    simp at hok
  · rw [if_neg hd] at hok
    simp only at hok
    have hps := Except.ok.inj hok
    have hmono := pairwise_lt_getD_mono ((localMaxima x).filter (fun p => height ≤ x.getD p 0))
      ((localMaxima_pairwise x).sublist (List.filter_sublist _))
    have hspec := selectByPeakDistance_spec
      ((localMaxima x).filter (fun p => height ≤ x.getD p 0))
      (((localMaxima x).filter (fun p => height ≤ x.getD p 0)).map (fun p => x.getD p 0))
      distance.toNat (by simp) hmono
    constructor
    · intro p hp
      rw [← hps] at hp
      have hmem := hspec.1 p hp
      simp only [List.mem_filter, decide_eq_true_eq] at hmem
      exact hmem
    · intro p hp q hq hne
      rw [← hps] at hp hq
      have hdist := hspec.2 p hp q hq hne
      rwa [Int.toNat_of_nonneg (by omega)] at hdist

/-- C7 (amended): whenever the peak-selection stage of `detect_moments`
(`find_peaks` with height the 70th percentile of the scores and distance
`int(fps * 2)`) returns a peak list, every selected peak is a local maximum
of the score sequence whose score is at least (meets or exceeds, not
necessarily strictly exceeds) the 70th-percentile threshold, and any two
distinct selected peaks' window indices differ by at least `int(fps * 2)`,
the window count equivalent to 2 seconds under the code's `index / fps`
time mapping. -/
theorem claim_C7_peaks (scores : List ℚ) (fps : ℚ) (ps : List ℕ)
    (hok : detectPeaks scores fps = .ok ps) :
    (∀ p ∈ ps, p ∈ localMaxima scores ∧
        percentile scores 70 ≤ scores.getD p 0 ∧
        1 ≤ p ∧ p + 1 ≤ scores.length - 1 ∧
        scores.getD (p - 1) 0 ≤ scores.getD p 0 ∧
        scores.getD (p + 1) 0 ≤ scores.getD p 0) ∧
      ∀ p ∈ ps, ∀ q ∈ ps, p ≠ q → pyInt (fps * 2) ≤ |(p : ℤ) - (q : ℤ)| := by
  unfold detectPeaks at hok
  have hspec := findPeaks_spec scores (percentile scores 70) (pyInt (fps * 2)) ps hok
  constructor
  · intro p hp
    obtain ⟨hlm, hh⟩ := hspec.1 p hp
    have hb := localMaxima_spec scores p hlm
    exact ⟨hlm, hh, hb.1, hb.2.1, hb.2.2.1, hb.2.2.2⟩
  · exact hspec.2

/-- C7 counterexample: on the score sequence [0, 1, 0, 1] with fps = 1 the
stage selects peak 1 whose score exactly EQUALS the 70th-percentile
threshold, so a selected peak need not strictly exceed the threshold
(scipy keeps peaks with height >= threshold). -/
theorem claim_C7_counterexample :
    detectPeaks [0, 1, 0, 1] 1 = .ok [1] ∧
      percentile [0, 1, 0, 1] 70 = 1 ∧
      ([0, 1, 0, 1] : List ℚ).getD 1 0 = 1 ∧
      ¬(percentile [0, 1, 0, 1] 70 < ([0, 1, 0, 1] : List ℚ).getD 1 0) := by
  refine ⟨?_, ?_, by norm_num [List.getD], ?_⟩
  · norm_num [detectPeaks, findPeaks, localMaxima, lmAux, scanAhead, percentile, qle,
      List.insertionSort, List.orderedInsert, pyInt, selectByPeakDistance, argsortAsc,
      leByVal, sbpdGo, clearLeft, clearRight, setFalse, List.range_succ,
      show Int.toNat 2 = 2 from rfl]
  · norm_num [percentile, qle, List.insertionSort, List.orderedInsert,
      show Int.toNat 2 = 2 from rfl]
  · rw [show percentile [0, 1, 0, 1] 70 = 1 from by
      norm_num [percentile, qle, List.insertionSort, List.orderedInsert,
        show Int.toNat 2 = 2 from rfl]]
    norm_num [List.getD]

/-- Concrete evaluation: on [0, 5, 0] with fps = 1 the stage selects peak 1. -/
theorem detectPeaks_witness_eval : detectPeaks [0, 5, 0] 1 = .ok [1] := by
  norm_num [detectPeaks, findPeaks, localMaxima, lmAux, scanAhead, percentile, qle,
    List.insertionSort, List.orderedInsert, pyInt, selectByPeakDistance, argsortAsc,
    leByVal, sbpdGo, clearLeft, clearRight, setFalse, List.range_succ,
    show Int.toNat 1 = 1 from rfl, show Int.toNat 2 = 2 from rfl]

/-- C7 witness: the amended theorem applied at a concrete completed stage
run. -/
theorem claim_C7_witness :
    detectPeaks [0, 5, 0] 1 = .ok [1] ∧
      ((∀ p ∈ ([1] : List ℕ), p ∈ localMaxima [0, 5, 0] ∧
          percentile [0, 5, 0] 70 ≤ ([0, 5, 0] : List ℚ).getD p 0 ∧
          1 ≤ p ∧ p + 1 ≤ ([0, 5, 0] : List ℚ).length - 1 ∧
          ([0, 5, 0] : List ℚ).getD (p - 1) 0 ≤ ([0, 5, 0] : List ℚ).getD p 0 ∧
          ([0, 5, 0] : List ℚ).getD (p + 1) 0 ≤ ([0, 5, 0] : List ℚ).getD p 0) ∧
        ∀ p ∈ ([1] : List ℕ), ∀ q ∈ ([1] : List ℕ), p ≠ q →
          pyInt ((1 : ℚ) * 2) ≤ |(p : ℤ) - (q : ℤ)|) :=
  ⟨detectPeaks_witness_eval, claim_C7_peaks [0, 5, 0] 1 [1] detectPeaks_witness_eval⟩
